import Mathlib

/-!
Shallow embedding of sync-github-ssh-keys (src/main.go): reconciliation of a
fetched GitHub key set into an authorized_keys file.

Lines and file contents are modelled as `List Char`. The reconciler
`ensureKeysetUpToDate` mirrors the Go function of the same name, keeping its
exact control flow: `strings.SplitN(line, " ", 3)` is `splitN3`; the
`bufio.ReadString`-driven read loop is `toLines`, where a trailing chunk with
no terminating newline is discarded because the Go loop breaks as soon as
`ReadString` reports end of input; the Go map of fetched keys is a
first-seen-order deduplicated list; and the managed-line test
`len(parts) > 3 && parts[2] == keyMagicComment` is carried over verbatim,
including the fact that it can never hold (SplitN with limit 3 yields at most
three parts).
-/

/-- Go: `keyMagicComment = "synced from github"`. -/
def keyMagicComment : List Char := "synced from github".toList

/-- Split a character list at the first occurrence of `ch`: the prefix before
`ch` and, when `ch` occurs, the remainder after it. Building block for Go's
`strings.SplitN` and for the line-reading loop. -/
def breakOn (ch : Char) : List Char → List Char × Option (List Char)
  | [] => ([], none)
  | d :: ds =>
    if d = ch then ([], some ds)
    else (d :: (breakOn ch ds).1, (breakOn ch ds).2)

/-- Go: `strings.SplitN(line, " ", 3)`. -/
def splitN3 (s : List Char) : List (List Char) :=
  match breakOn ' ' s with
  | (a, none) => [a]
  | (a, some r) =>
    match breakOn ' ' r with
    | (b, none) => [a, b]
    | (b, some r2) => [a, b, r2]

/-- Go: `key := parts[0] + " " + parts[1]` with `parts = splitN3 line`. -/
def keyOf (line : List Char) : List Char :=
  (splitN3 line).getD 0 [] ++ ' ' :: (splitN3 line).getD 1 []

/-- The canonical managed line `key + " " + keyMagicComment` that
`fmt.Fprintf(output, ..., key, keyMagicComment)` writes. -/
def canonicalLine (key : List Char) : List Char := key ++ ' ' :: keyMagicComment

/-- A line whose third SplitN part exists and equals the ownership marker
(the spec's ManagedKey classification). -/
def isManagedLine (line : List Char) : Bool :=
  match splitN3 line with
  | [_, _, c] => decide (c = keyMagicComment)
  | _ => false

/-- The `bufio.ReadString` loop of `ensureKeysetUpToDate`, accumulating the
current line: each newline-terminated chunk yields one line with its
terminator stripped; at end of input the Go loop breaks at once, discarding
any unterminated trailing chunk. -/
def toLinesAux : List Char → List Char → List (List Char)
  | _, [] => []
  | cur, d :: ds =>
    if d = '\n' then cur :: toLinesAux [] ds else toLinesAux (cur ++ [d]) ds

/-- The sequence of lines the Go read loop processes for given file bytes. -/
def toLines (cs : List Char) : List (List Char) := toLinesAux [] cs

/-- Collapse duplicate fetched keys keeping first occurrences: the Go map
built from `newKeyset`. Iteration order of a Go map is unspecified; this
model fixes first-seen order. -/
def dedupKeysAux (seen : List (List Char)) : List (List Char) → List (List Char)
  | [] => []
  | k :: ks =>
    if k ∈ seen then dedupKeysAux seen ks else k :: dedupKeysAux (k :: seen) ks

/-- First-seen-order deduplication of the fetched key list. -/
def dedupKeys (l : List (List Char)) : List (List Char) := dedupKeysAux [] l

/-- The per-line loop of `ensureKeysetUpToDate` (src/main.go lines 123-163):
given the pending key set and the 1-based number of the first line, returns
the emitted lines together with the keys still pending afterwards, or the
number of the line that failed the two-part check. The managed-key branch
keeps the source's `3 < parts.length` guard and its inner membership test
exactly as written. -/
def processLines (pending : List (List Char)) (i : Nat) :
    List (List Char) → Except Nat (List (List Char) × List (List Char))
  | [] => .ok ([], pending)
  | line :: rest =>
    if (splitN3 line).length < 2 then .error i
    else
      match processLines (pending.filter fun k => decide (k ≠ keyOf line)) (i + 1) rest with
      | .error j => .error j
      | .ok (o, r) =>
        .ok ((if 3 < (splitN3 line).length ∧ (splitN3 line).getD 2 [] = keyMagicComment then
                if keyOf line ∈ pending then [] else [canonicalLine (keyOf line)]
              else [line]) ++ o, r)

/-- Go `ensureKeysetUpToDate`: hash the fetched keys, walk the current lines,
then append every key still pending, marked. Errors carry the 1-based number
of the offending line. -/
def ensureKeysetUpToDate (newKeyset : List (List Char)) (content : List Char) :
    Except Nat (List (List Char)) :=
  match processLines (dedupKeys newKeyset) 1 (toLines content) with
  | .error i => .error i
  | .ok (out, rem) => .ok (out ++ rem.map canonicalLine)

/-- Every emitted line is written with a single trailing newline. -/
def renderLines : List (List Char) → List Char
  | [] => []
  | l :: ls => l ++ '\n' :: renderLines ls

/-- Seek to offset 0, copy the buffered new content over the file, truncate
to the number of bytes copied (src/main.go lines 98-111). -/
def overwriteTruncate (orig newC : List Char) : List Char :=
  (newC ++ orig.drop newC.length).take newC.length

/-- File-level effect of `syncGithubKeys` after a successful fetch: the whole
new content is buffered before any write, and on a reconcile error the
function returns before touching the file. Returns the cycle result and the
file contents afterwards. -/
def syncGithubKeys (publicKeys : List (List Char)) (file : List Char) :
    Except Nat Unit × List Char :=
  match ensureKeysetUpToDate publicKeys file with
  | .error e => (.error e, file)
  | .ok out => (.ok (), overwriteTruncate file (renderLines out))

/-! ### Properties of `breakOn` and `splitN3` -/

theorem breakOn_of_not_mem {ch : Char} {s : List Char} (h : ch ∉ s) :
    breakOn ch s = (s, none) := by
  induction s with
  | nil => rfl
  | cons d ds ih =>
    rw [List.mem_cons] at h
    push_neg at h
    rw [breakOn, if_neg (fun hd => h.1 hd.symm), ih h.2]

theorem breakOn_append {ch : Char} {a r : List Char} (h : ch ∉ a) :
    breakOn ch (a ++ ch :: r) = (a, some r) := by
  induction a with
  | nil => simp [breakOn]
  | cons d ds ih =>
    rw [List.mem_cons] at h
    push_neg at h
    rw [List.cons_append, breakOn, if_neg (fun hd => h.1 hd.symm), ih h.2]

theorem breakOn_eq_none {ch : Char} {s a : List Char} (h : breakOn ch s = (a, none)) :
    a = s ∧ ch ∉ s := by
  induction s generalizing a with
  | nil =>
    rw [breakOn] at h
    simp only [Prod.mk.injEq] at h
    exact ⟨h.1.symm, List.not_mem_nil ch⟩
  | cons d ds ih =>
    rw [breakOn] at h
    by_cases hd : d = ch
    · rw [if_pos hd] at h
      simp at h
    · rw [if_neg hd] at h
      rcases hp : breakOn ch ds with ⟨p1, p2⟩
      rw [hp] at h
      simp only [Prod.mk.injEq] at h
      obtain ⟨ha, rfl⟩ := h
      obtain ⟨hds, hm⟩ := ih hp
      subst hds
      refine ⟨ha.symm, ?_⟩
      rw [List.mem_cons]
      push_neg
      exact ⟨fun hc => hd hc.symm, hm⟩

theorem breakOn_eq_some {ch : Char} {s a r : List Char}
    (h : breakOn ch s = (a, some r)) : s = a ++ ch :: r ∧ ch ∉ a := by
  induction s generalizing a r with
  | nil =>
    rw [breakOn] at h
    simp at h
  | cons d ds ih =>
    rw [breakOn] at h
    by_cases hd : d = ch
    · rw [if_pos hd] at h
      simp only [Prod.mk.injEq, Option.some.injEq] at h
      obtain ⟨h1, h2⟩ := h
      subst h2
      subst hd
      rw [← h1]
      exact ⟨rfl, List.not_mem_nil d⟩
    · rw [if_neg hd] at h
      rcases hp : breakOn ch ds with ⟨p1, p2⟩
      rw [hp] at h
      simp only [Prod.mk.injEq] at h
      obtain ⟨ha, rfl⟩ := h
      obtain ⟨hs, hm⟩ := ih hp
      subst ha
      constructor
      · rw [List.cons_append, ← hs]
      · rw [List.mem_cons]
        push_neg
        exact ⟨fun hc => hd hc.symm, hm⟩

theorem splitN3_length_le (s : List Char) : (splitN3 s).length ≤ 3 := by
  rw [splitN3]
  rcases h1 : breakOn ' ' s with ⟨a, _ | r⟩
  · simp
  · rcases h2 : breakOn ' ' r with ⟨b, _ | r2⟩ <;> simp [h2]

theorem splitN3_ne_nil (s : List Char) : splitN3 s ≠ [] := by
  rw [splitN3]
  rcases h1 : breakOn ' ' s with ⟨a, _ | r⟩
  · simp
  · rcases h2 : breakOn ' ' r with ⟨b, _ | r2⟩ <;> simp [h2]

theorem splitN3_eq_pair {s a b : List Char} (h : splitN3 s = [a, b]) :
    s = a ++ ' ' :: b ∧ ' ' ∉ a ∧ ' ' ∉ b := by
  rcases h1 : breakOn ' ' s with ⟨a', r⟩
  rcases r with _ | r
  · simp [splitN3, h1] at h
  · rcases h2 : breakOn ' ' r with ⟨b', r2⟩
    rcases r2 with _ | r2
    · simp only [splitN3, h1, h2, List.cons.injEq, and_true] at h
      obtain ⟨rfl, rfl⟩ := h
      obtain ⟨hs, hna⟩ := breakOn_eq_some h1
      obtain ⟨hb, hnb⟩ := breakOn_eq_none h2
      subst hb
      exact ⟨hs, hna, hnb⟩
    · simp [splitN3, h1, h2] at h

theorem splitN3_eq_triple {s a b c : List Char} (h : splitN3 s = [a, b, c]) :
    s = a ++ ' ' :: (b ++ ' ' :: c) ∧ ' ' ∉ a ∧ ' ' ∉ b := by
  rcases h1 : breakOn ' ' s with ⟨a', r⟩
  rcases r with _ | r
  · simp [splitN3, h1] at h
  · rcases h2 : breakOn ' ' r with ⟨b', r2⟩
    rcases r2 with _ | r2
    · simp [splitN3, h1, h2] at h
    · simp only [splitN3, h1, h2, List.cons.injEq, and_true] at h
      obtain ⟨rfl, rfl, rfl⟩ := h
      obtain ⟨hs, hna⟩ := breakOn_eq_some h1
      obtain ⟨hr, hnb⟩ := breakOn_eq_some h2
      subst hr
      exact ⟨hs, hna, hnb⟩

theorem splitN3_build {a b c : List Char} (ha : ' ' ∉ a) (hb : ' ' ∉ b) :
    splitN3 (a ++ ' ' :: (b ++ ' ' :: c)) = [a, b, c] := by
  simp [splitN3, breakOn_append ha, breakOn_append hb]

theorem keyOf_pair {s a b : List Char} (h : splitN3 s = [a, b]) :
    keyOf s = a ++ ' ' :: b := by
  rw [keyOf, h]
  rfl

theorem keyOf_triple {s a b c : List Char} (h : splitN3 s = [a, b, c]) :
    keyOf s = a ++ ' ' :: b := by
  rw [keyOf, h]
  rfl

theorem canonicalLine_split {k a b : List Char} (h : splitN3 k = [a, b]) :
    splitN3 (canonicalLine k) = [a, b, keyMagicComment] := by
  obtain ⟨hk, ha, hb⟩ := splitN3_eq_pair h
  rw [canonicalLine, hk, List.append_assoc, List.cons_append, splitN3_build ha hb]

theorem keyOf_canonicalLine {k a b : List Char} (h : splitN3 k = [a, b]) :
    keyOf (canonicalLine k) = k := by
  rw [keyOf_triple (canonicalLine_split h), ← (splitN3_eq_pair h).1]

/-! ### Properties of the read loop and of rendering -/

theorem toLinesAux_no_newline {cur cs : List Char} (h : '\n' ∉ cs) :
    toLinesAux cur cs = [] := by
  induction cs generalizing cur with
  | nil => rfl
  | cons d ds ih =>
    rw [List.mem_cons] at h
    push_neg at h
    rw [toLinesAux, if_neg (fun hd => h.1 hd.symm)]
    exact ih h.2

theorem toLinesAux_line {cur l rest : List Char} (h : '\n' ∉ l) :
    toLinesAux cur (l ++ '\n' :: rest) = (cur ++ l) :: toLinesAux [] rest := by
  induction l generalizing cur with
  | nil => simp [toLinesAux]
  | cons d ds ih =>
    rw [List.mem_cons] at h
    push_neg at h
    rw [List.cons_append, toLinesAux, if_neg (fun hd => h.1 hd.symm), ih h.2,
      List.append_cons cur d ds]

theorem toLines_renderLines_append {ls : List (List Char)} {tail : List Char}
    (h : ∀ l ∈ ls, '\n' ∉ l) :
    toLines (renderLines ls ++ tail) = ls ++ toLines tail := by
  induction ls with
  | nil => rfl
  | cons l ls ih =>
    rw [renderLines, toLines, List.append_assoc, List.cons_append,
      toLinesAux_line (h l (List.mem_cons_self l ls)), List.nil_append, List.cons_append]
    rw [toLines] at ih
    rw [ih (fun x hx => h x (List.mem_cons_of_mem l hx))]

theorem toLines_renderLines {ls : List (List Char)} (h : ∀ l ∈ ls, '\n' ∉ l) :
    toLines (renderLines ls) = ls := by
  have := @toLines_renderLines_append ls [] h
  rwa [List.append_nil, show toLines ([] : List Char) = [] from rfl,
    List.append_nil] at this

theorem mem_toLinesAux_no_newline {cur cs l : List Char} (hcur : '\n' ∉ cur)
    (h : l ∈ toLinesAux cur cs) : '\n' ∉ l := by
  induction cs generalizing cur with
  | nil => simp [toLinesAux] at h
  | cons d ds ih =>
    rw [toLinesAux] at h
    by_cases hd : d = '\n'
    · rw [if_pos hd] at h
      rcases List.mem_cons.mp h with rfl | h
      · exact hcur
      · exact ih (List.not_mem_nil '\n') h
    · rw [if_neg hd] at h
      refine ih ?_ h
      rw [List.mem_append]
      push_neg
      refine ⟨hcur, ?_⟩
      rw [List.mem_singleton]
      exact fun hc => hd hc.symm

theorem mem_toLines_no_newline {cs l : List Char} (h : l ∈ toLines cs) : '\n' ∉ l :=
  mem_toLinesAux_no_newline (List.not_mem_nil '\n') h

/-! ### Properties of key deduplication -/

theorem mem_dedupKeysAux {seen ks : List (List Char)} {x : List Char} :
    x ∈ dedupKeysAux seen ks ↔ x ∈ ks ∧ x ∉ seen := by
  induction ks generalizing seen with
  | nil => simp [dedupKeysAux]
  | cons k ks ih =>
    rw [dedupKeysAux]
    by_cases hk : k ∈ seen <;> by_cases hxk : x = k
    · subst hxk
      rw [if_pos hk, ih]
      simp [hk]
    · rw [if_pos hk, ih]
      simp [hxk]
    · subst hxk
      rw [if_neg hk]
      simp [hk]
    · rw [if_neg hk]
      simp only [List.mem_cons, ih]
      simp [hxk]

theorem mem_dedupKeys {ks : List (List Char)} {x : List Char} :
    x ∈ dedupKeys ks ↔ x ∈ ks := by
  rw [dedupKeys, mem_dedupKeysAux]
  simp

/-! ### Characterization of the per-line loop

Since SplitN with limit 3 yields at most three parts, the managed-key guard
`3 < parts.length` of the source can never hold, so on well-formed input the
loop emits every line verbatim and merely deletes each line's two-token key
from the pending set. -/

theorem processLines_dead_branch (line : List Char) :
    ¬(3 < (splitN3 line).length ∧ (splitN3 line).getD 2 [] = keyMagicComment) :=
  fun hc => absurd hc.1 (by have := splitN3_length_le line; omega)

theorem processLines_ok (pending : List (List Char)) (i : Nat) (ls : List (List Char))
    (h : ∀ l ∈ ls, 2 ≤ (splitN3 l).length) :
    processLines pending i ls =
      .ok (ls, pending.filter fun k => decide (k ∉ ls.map keyOf)) := by
  induction ls generalizing pending i with
  | nil => simp [processLines]
  | cons line rest ih =>
    have hl2 : 2 ≤ (splitN3 line).length := h line (List.mem_cons_self line rest)
    rw [processLines, if_neg (by omega),
      ih _ (i + 1) (fun l hl => h l (List.mem_cons_of_mem line hl))]
    dsimp only
    rw [if_neg (processLines_dead_branch line), List.filter_filter, List.singleton_append,
      Except.ok.injEq, Prod.mk.injEq]
    refine ⟨rfl, List.filter_congr ?_⟩
    intro k _
    by_cases h1 : k = keyOf line <;> by_cases h2 : k ∈ rest.map keyOf <;>
      simp [h1, h2]

theorem processLines_ok_wf {pending : List (List Char)} {i : Nat}
    {ls : List (List Char)} {pr : List (List Char) × List (List Char)}
    (h : processLines pending i ls = .ok pr) :
    ∀ l ∈ ls, 2 ≤ (splitN3 l).length := by
  induction ls generalizing pending i pr with
  | nil => intro l hl; simp at hl
  | cons line rest ih =>
    intro l hl
    rw [processLines] at h
    by_cases hb : (splitN3 line).length < 2
    · rw [if_pos hb] at h
      exact absurd h (by simp)
    · rw [if_neg hb] at h
      rw [List.mem_cons] at hl
      rcases hl with rfl | hl
      · omega
      · rcases hrec : processLines (pending.filter fun k => decide (k ≠ keyOf line))
            (i + 1) rest with j | pr'
        · rw [hrec] at h
          exact absurd h (by simp)
        · exact ih hrec l hl

theorem processLines_error (pending : List (List Char)) (i : Nat)
    (pre : List (List Char)) (line : List Char) (post : List (List Char))
    (hpre : ∀ l ∈ pre, 2 ≤ (splitN3 l).length)
    (hline : (splitN3 line).length < 2) :
    processLines pending i (pre ++ line :: post) = .error (i + pre.length) := by
  induction pre generalizing pending i with
  | nil =>
    rw [List.nil_append, processLines, if_pos hline, List.length_nil, Nat.add_zero]
  | cons p pre ih =>
    have hp : 2 ≤ (splitN3 p).length := hpre p (List.mem_cons_self p pre)
    rw [List.cons_append, processLines, if_neg (by omega),
      ih _ (i + 1) (fun l hl => hpre l (List.mem_cons_of_mem p hl))]
    dsimp only
    rw [List.length_cons, Except.error.injEq]
    omega

theorem processLines_rem_subset {pending : List (List Char)} {i : Nat}
    {ls : List (List Char)} {pr : List (List Char) × List (List Char)}
    (h : processLines pending i ls = .ok pr) : pr.2 ⊆ pending := by
  induction ls generalizing pending i pr with
  | nil =>
    rw [processLines, Except.ok.injEq] at h
    rw [← h]
    exact List.Subset.refl pending
  | cons line rest ih =>
    rw [processLines] at h
    by_cases hb : (splitN3 line).length < 2
    · rw [if_pos hb] at h
      exact absurd h (by simp)
    · rw [if_neg hb] at h
      rcases hrec : processLines (pending.filter fun k => decide (k ≠ keyOf line))
          (i + 1) rest with j | pr'
      · rw [hrec] at h
        exact absurd h (by simp)
      · rw [hrec] at h
        dsimp only at h
        rw [Except.ok.injEq] at h
        have hsub := ih hrec
        rw [← h]
        exact fun x hx => List.mem_of_mem_filter (hsub hx)

theorem ensure_ok_elim {R : List (List Char)} {content : List Char}
    {out : List (List Char)} (h : ensureKeysetUpToDate R content = .ok out) :
    (∀ l ∈ toLines content, 2 ≤ (splitN3 l).length) ∧
      out = toLines content ++
        ((dedupKeys R).filter fun k =>
          decide (k ∉ (toLines content).map keyOf)).map canonicalLine := by
  have hwf : ∀ l ∈ toLines content, 2 ≤ (splitN3 l).length := by
    rw [ensureKeysetUpToDate] at h
    rcases hp : processLines (dedupKeys R) 1 (toLines content) with j | pr
    · rw [hp] at h
      exact absurd h (by simp)
    · exact processLines_ok_wf hp
  refine ⟨hwf, ?_⟩
  rw [ensureKeysetUpToDate, processLines_ok _ _ _ hwf] at h
  dsimp only at h
  rw [Except.ok.injEq] at h
  exact h.symm

/-! ### The claims -/

/-- Claim C1: for a current-file line splitting into three parts whose third
part equals the ownership marker and whose two-token key is present in the
pending mapping, the loop emits that line at its original position in
canonical form (key, a single space, the marker) and deletes the key from
the pending mapping, so the key is not among the keys appended at the end.
(In the source the managed-key branch is unreachable and the line is emitted
verbatim, but a line whose third SplitN part equals the marker is literally
its own canonical form, so the claimed output is produced.) -/
theorem claim1_managed_refresh (pending : List (List Char)) (i : Nat)
    (line : List Char) (rest : List (List Char)) (a b : List Char)
    (h3 : splitN3 line = [a, b, keyMagicComment])
    (_hk : a ++ ' ' :: b ∈ pending) :
    processLines pending i (line :: rest) =
      Except.map (fun p => (canonicalLine (a ++ ' ' :: b) :: p.1, p.2))
        (processLines (pending.filter fun k => decide (k ≠ a ++ ' ' :: b)) (i + 1) rest)
    ∧ ∀ o r, processLines pending i (line :: rest) = .ok (o, r) →
        a ++ ' ' :: b ∉ r := by
  have hkey : keyOf line = a ++ ' ' :: b := keyOf_triple h3
  have hlen : (splitN3 line).length = 3 := by rw [h3]; rfl
  have hline : line = canonicalLine (a ++ ' ' :: b) := by
    rw [canonicalLine, (splitN3_eq_triple h3).1, List.append_assoc, List.cons_append]
  constructor
  · rw [processLines, if_neg (by omega), hkey]
    rcases hrec : processLines (pending.filter fun k => decide (k ≠ a ++ ' ' :: b))
        (i + 1) rest with j | ⟨o, r⟩
    · dsimp only
      rfl
    · dsimp only [Except.map]
      rw [if_neg (processLines_dead_branch line), Except.ok.injEq, Prod.mk.injEq]
      refine ⟨?_, rfl⟩
      rw [← hline, List.singleton_append]
  · intro o r hok
    rw [processLines, if_neg (by omega), hkey] at hok
    rcases hrec : processLines (pending.filter fun k => decide (k ≠ a ++ ' ' :: b))
        (i + 1) rest with j | ⟨o', r'⟩ <;> rw [hrec] at hok
    · exact absurd hok (by simp)
    · dsimp only at hok
      rw [Except.ok.injEq, Prod.mk.injEq] at hok
      obtain ⟨-, hr⟩ := hok
      subst hr
      intro hmem
      have hsub := processLines_rem_subset hrec
      have hmem2 := hsub hmem
      rw [List.mem_filter, decide_eq_true_eq] at hmem2
      exact hmem2.2 rfl

/-- Witness for claim C1 at a concrete managed line with its key pending. -/
theorem claim1_witness :
    (processLines ["q w".toList] 1 ["q w synced from github".toList] =
      Except.map
        (fun p : List (List Char) × List (List Char) =>
          (canonicalLine ("q".toList ++ ' ' :: "w".toList) :: p.1, p.2))
        (processLines
          ((["q w".toList]).filter fun k => decide (k ≠ "q".toList ++ ' ' :: "w".toList))
          (1 + 1) []))
    ∧ ∀ o r, processLines ["q w".toList] 1 ["q w synced from github".toList] = .ok (o, r) →
        "q".toList ++ ' ' :: "w".toList ∉ r :=
  claim1_managed_refresh ["q w".toList] 1 "q w synced from github".toList []
    "q".toList "w".toList (by rfl) (by decide)

/-- Claim C2 (refuted; code bug): a managed line (third part equal to the
marker) whose key is absent from the pending mapping should be omitted from
the output, but the source's guard `len(parts) > 3` can never hold after
`SplitN(line, " ", 3)`, so the stale managed line is emitted verbatim: with
an empty remote key set, the managed line survives in the output. -/
theorem claim2_stale_managed_line_kept :
    ensureKeysetUpToDate [] "u v synced from github\n".toList =
      .ok ["u v synced from github".toList]
    ∧ isManagedLine "u v synced from github".toList = true :=
  ⟨rfl, rfl⟩

/-- Claim C3 (refuted; code bug): convergence fails. With remote key set R
empty and a file holding one managed key, the output's managed identities
should equal R's (that is, be empty), but the stale managed line is kept, so
the output still contains a managed line. -/
theorem claim3_convergence_fails :
    ensureKeysetUpToDate [] "c d synced from github\n".toList =
      .ok ["c d synced from github".toList]
    ∧ isManagedLine "c d synced from github".toList = true :=
  ⟨rfl, rfl⟩

/-- Counterexample to claim C4 as stated: with a remote key that carries a
third token ("a b c"), the appended line's two-token file key ("a b") never
matches the raw remote key, so a second reconciliation of the first run's
output appends the key again instead of reproducing the output. -/
theorem claim4_counterexample :
    ensureKeysetUpToDate ["a b c".toList] [] = .ok ["a b c synced from github".toList]
    ∧ ensureKeysetUpToDate ["a b c".toList]
        (renderLines ["a b c synced from github".toList]) =
      .ok ["a b c synced from github".toList, "a b c synced from github".toList]
    ∧ (["a b c synced from github".toList, "a b c synced from github".toList] :
        List (List Char)) ≠ ["a b c synced from github".toList] :=
  ⟨rfl, rfl, by decide⟩

/-- Claim C4 as amended: when every remote key splits into exactly two
space-delimited tokens and contains no newline (the shape `getSSHKeys`
returns for comment-free GitHub keys), reconciliation is idempotent: feeding
the first run's rendered output back in with the same remote key set
reproduces that output byte for byte. -/
theorem claim4_idempotent (R : List (List Char)) (content : List Char)
    (hkeys : ∀ k ∈ R, (∃ a b, splitN3 k = [a, b]) ∧ '\n' ∉ k)
    (out : List (List Char)) (h1 : ensureKeysetUpToDate R content = .ok out) :
    ensureKeysetUpToDate R (renderLines out) = .ok out := by
  obtain ⟨hwf, hout⟩ := ensure_ok_elim h1
  have hnl_out : ∀ l ∈ out, '\n' ∉ l := by
    intro l hl
    rw [hout, List.mem_append] at hl
    rcases hl with hl | hl
    · exact mem_toLines_no_newline hl
    · rw [List.mem_map] at hl
      obtain ⟨k, hk, rfl⟩ := hl
      have hkR : k ∈ R := mem_dedupKeys.mp (List.mem_of_mem_filter hk)
      have hknl := (hkeys k hkR).2
      rw [canonicalLine, List.mem_append]
      push_neg
      exact ⟨hknl, by decide⟩
  have hwf_out : ∀ l ∈ out, 2 ≤ (splitN3 l).length := by
    intro l hl
    rw [hout, List.mem_append] at hl
    rcases hl with hl | hl
    · exact hwf l hl
    · rw [List.mem_map] at hl
      obtain ⟨k, hk, rfl⟩ := hl
      have hkR : k ∈ R := mem_dedupKeys.mp (List.mem_of_mem_filter hk)
      obtain ⟨a, b, hab⟩ := (hkeys k hkR).1
      rw [canonicalLine_split hab]
      simp
  rw [ensureKeysetUpToDate, toLines_renderLines hnl_out,
    processLines_ok _ _ _ hwf_out]
  dsimp only
  have hfilt : ((dedupKeys R).filter fun k => decide (k ∉ out.map keyOf)) = [] := by
    rw [List.filter_eq_nil_iff]
    intro k hk
    simp only [decide_eq_true_eq, not_not]
    have hkR : k ∈ R := mem_dedupKeys.mp hk
    by_cases hmem : k ∈ (toLines content).map keyOf
    · rw [hout, List.map_append, List.mem_append]
      exact Or.inl hmem
    · have hkF : k ∈ (dedupKeys R).filter
          fun k => decide (k ∉ (toLines content).map keyOf) := by
        rw [List.mem_filter]
        exact ⟨hk, by simpa using hmem⟩
      obtain ⟨a, b, hab⟩ := (hkeys k hkR).1
      rw [hout, List.map_append, List.mem_append]
      right
      exact List.mem_map.mpr
        ⟨canonicalLine k, List.mem_map_of_mem canonicalLine hkF, keyOf_canonicalLine hab⟩
  rw [hfilt, List.map_nil, List.append_nil]

/-- Witness for claim C4's amended idempotence at a concrete two-token key. -/
theorem claim4_witness :
    ensureKeysetUpToDate ["a b".toList] (renderLines ["a b synced from github".toList]) =
      .ok ["a b synced from github".toList] :=
  claim4_idempotent ["a b".toList] []
    (by
      intro k hk
      rw [List.mem_singleton] at hk
      subst hk
      exact ⟨⟨"a".toList, "b".toList, rfl⟩, by decide⟩)
    ["a b synced from github".toList] rfl

/-- Counterexample to claim C5 as stated: the unmanaged comment line
"# local key" is the current file's only line, but it lacks a final newline,
so the read loop discards it; reconciliation succeeds and the unmanaged line
appears nowhere in the output, which is empty. -/
theorem claim5_counterexample :
    ensureKeysetUpToDate [] "# local key".toList = .ok []
    ∧ isManagedLine "# local key".toList = false :=
  ⟨rfl, rfl⟩

/-- Claim C5 as amended: on success, every unmanaged line among the
newline-terminated lines of the current file (the lines the read loop
yields; third SplitN part absent or different from the marker) appears
verbatim in the output, in its original relative order: those unmanaged
lines form a sublist of the output. An unterminated trailing chunk is
discarded by the read loop and is not passed through. -/
theorem claim5_passthrough (R : List (List Char)) (content : List Char)
    (out : List (List Char)) (h : ensureKeysetUpToDate R content = .ok out) :
    List.Sublist ((toLines content).filter fun l => !isManagedLine l) out := by
  obtain ⟨-, hout⟩ := ensure_ok_elim h
  rw [hout]
  exact (List.filter_sublist _).trans (List.sublist_append_left _ _)

/-- Witness for claim C5 at a concrete file with a comment line. -/
theorem claim5_witness :
    List.Sublist ((toLines "# x\n".toList).filter fun l => !isManagedLine l)
      ["# x".toList] :=
  claim5_passthrough [] "# x\n".toList ["# x".toList] rfl

/-- Counterexample to claim C6 as stated: the file "ab" holds a single line
with one token, yet reconciliation succeeds (with empty output), because the
read loop breaks on end of input and never parses the unterminated line. -/
theorem claim6_counterexample :
    ensureKeysetUpToDate [] "ab".toList = .ok [] := rfl

/-- Claim C6 as amended: a newline-terminated line that cannot be split into
at least two space-delimited parts, with all earlier lines well formed,
makes reconciliation fail with that line's 1-based number (and no output
content is produced). -/
theorem claim6_malformed (R : List (List Char)) (pre : List (List Char))
    (line : List Char) (tail : List Char)
    (hpre2 : ∀ l ∈ pre, 2 ≤ (splitN3 l).length)
    (hprenl : ∀ l ∈ pre, '\n' ∉ l)
    (hlnl : '\n' ∉ line)
    (hbad : (splitN3 line).length < 2) :
    ensureKeysetUpToDate R (renderLines pre ++ line ++ '\n' :: tail) =
      .error (pre.length + 1) := by
  have ht : toLines (renderLines pre ++ line ++ '\n' :: tail) =
      pre ++ line :: toLines tail := by
    rw [List.append_assoc, toLines_renderLines_append hprenl]
    congr 1
    rw [toLines, toLinesAux_line hlnl, List.nil_append]
    rfl
  rw [ensureKeysetUpToDate, ht,
    processLines_error _ _ pre line (toLines tail) hpre2 hbad]
  dsimp only
  rw [Except.error.injEq]
  omega

/-- Witness for claim C6's amended form at a one-token terminated line. -/
theorem claim6_witness :
    ensureKeysetUpToDate [] (renderLines [] ++ "x".toList ++ '\n' :: []) = .error 1 :=
  claim6_malformed [] [] "x".toList []
    (by intro l hl; exact absurd hl (List.not_mem_nil l))
    (by intro l hl; exact absurd hl (List.not_mem_nil l))
    (by decide) (by decide)

/-- Claim C7: when reconciliation fails (for example on a malformed line),
`syncGithubKeys` returns before any write, so the file contents afterwards
are exactly the contents before the cycle. -/
theorem claim7_no_write_on_error (keys : List (List Char)) (file : List Char)
    (e : Nat) (h : ensureKeysetUpToDate keys file = .error e) :
    (syncGithubKeys keys file).2 = file := by
  rw [syncGithubKeys, h]

/-- Witness for claim C7 at a file whose only line is malformed. -/
theorem claim7_witness : (syncGithubKeys [] "z\n".toList).2 = "z\n".toList :=
  claim7_no_write_on_error [] "z\n".toList 1 rfl

/-- Counterexample to claim C8 as stated: the well-formed trailing line
"e f" lacks a final newline and is silently discarded instead of being
parsed and contributing to the output. -/
theorem claim8_counterexample :
    ensureKeysetUpToDate [] "e f".toList = .ok [] := rfl

/-- Claim C8 as amended: a trailing chunk without a final line terminator is
ignored entirely — reconciliation behaves exactly as if the chunk were not
there, because the read loop breaks on end of input before processing it. -/
theorem claim8_trailing_dropped (R : List (List Char)) (pre : List (List Char))
    (tail : List Char) (hnl : ∀ l ∈ pre, '\n' ∉ l) (htail : '\n' ∉ tail) :
    ensureKeysetUpToDate R (renderLines pre ++ tail) =
      ensureKeysetUpToDate R (renderLines pre) := by
  have h1 : toLines (renderLines pre ++ tail) = pre := by
    rw [toLines_renderLines_append hnl, toLines, toLinesAux_no_newline htail,
      List.append_nil]
  have h2 : toLines (renderLines pre) = pre := toLines_renderLines hnl
  rw [ensureKeysetUpToDate, ensureKeysetUpToDate, h1, h2]

/-- Witness for claim C8's amended form: appending an unterminated chunk to
an empty file changes nothing. -/
theorem claim8_witness :
    ensureKeysetUpToDate [] (renderLines [] ++ "e f g".toList) =
      ensureKeysetUpToDate [] (renderLines []) :=
  claim8_trailing_dropped [] [] "e f g".toList
    (by intro l hl; exact absurd hl (List.not_mem_nil l)) (by decide)

/-- Counterexample to claim C9 as stated: a file holding one blank line does
not pass it through — reconciliation fails with a malformed-line error at
line 1, since the blank line splits into a single empty token. -/
theorem claim9_counterexample :
    ensureKeysetUpToDate [] "\n".toList = .error 1 := rfl

/-- Claim C9 as amended: a blank (newline-terminated) line, preceded by well
formed lines, makes reconciliation fail with that line's 1-based number
instead of being passed through; only lines with at least two
space-delimited tokens (comments included) are passed through. -/
theorem claim9_blank_fails (R : List (List Char)) (pre : List (List Char))
    (tail : List Char)
    (hpre2 : ∀ l ∈ pre, 2 ≤ (splitN3 l).length)
    (hprenl : ∀ l ∈ pre, '\n' ∉ l) :
    ensureKeysetUpToDate R (renderLines pre ++ '\n' :: tail) =
      .error (pre.length + 1) := by
  have ht : toLines (renderLines pre ++ '\n' :: tail) =
      pre ++ [] :: toLines tail := by
    rw [toLines_renderLines_append hprenl]
    rfl
  rw [ensureKeysetUpToDate, ht,
    processLines_error _ _ pre [] (toLines tail) hpre2 (by decide)]
  dsimp only
  rw [Except.error.injEq]
  omega

/-- Witness for claim C9's amended form at a file holding one blank line. -/
theorem claim9_witness :
    ensureKeysetUpToDate [] (renderLines [] ++ '\n' :: []) = .error 1 :=
  claim9_blank_fails [] [] []
    (by intro l hl; exact absurd hl (List.not_mem_nil l))
    (by intro l hl; exact absurd hl (List.not_mem_nil l))

/-- Appending the fixed marker suffix is injective on keys. -/
theorem canonicalLine_inj {k k' : List Char}
    (h : canonicalLine k = canonicalLine k') : k = k' := by
  rw [canonicalLine, canonicalLine] at h
  have hl : k.length = k'.length := by
    have hlen := congrArg List.length h
    rw [List.length_append, List.length_append] at hlen
    omega
  exact (List.append_inj h (by rw [hl])).1

/-- Claim C10: a remote key equal to the two-token key of any current-file
line — managed or not — is deleted from the pending mapping when that line
is processed, and is therefore never appended at the end: the output is the
processed lines followed by a tail of appended keys that does not contain
the canonical line of that key. -/
theorem claim10_matched_key_not_appended (R : List (List Char))
    (content : List Char) (out : List (List Char)) (l : List Char)
    (h : ensureKeysetUpToDate R content = .ok out) (hl : l ∈ toLines content) :
    ∃ tail, out = toLines content ++ tail ∧ canonicalLine (keyOf l) ∉ tail := by
  obtain ⟨-, hout⟩ := ensure_ok_elim h
  refine ⟨_, hout, ?_⟩
  intro hmem
  rw [List.mem_map] at hmem
  obtain ⟨k, hkF, hck⟩ := hmem
  have hkeq : k = keyOf l := canonicalLine_inj hck
  rw [List.mem_filter, decide_eq_true_eq] at hkF
  exact hkF.2 (hkeq ▸ List.mem_map_of_mem keyOf hl)

/-- Witness for claim C10: the remote key "p q" matches the two tokens of
the unmanaged line "p q my-comment" and is not appended. -/
theorem claim10_witness :
    ∃ tail, ["p q my-comment".toList] =
        toLines "p q my-comment\n".toList ++ tail
      ∧ canonicalLine (keyOf "p q my-comment".toList) ∉ tail :=
  claim10_matched_key_not_appended ["p q".toList] "p q my-comment\n".toList
    ["p q my-comment".toList] "p q my-comment".toList rfl (by decide)
